import Mathlib

/-!
Verification of the thought-process supervisor and its directory-backed
key-value store.  Definitions are shallow embeddings of the Go sources:
`store/dir.go` (DirStore), `process/types.go` (the record model) and the
process manager implementation (Manager.Start / List / GetLogs / Kill and
the status reconciliation).  Go pointers become `Option`, Go maps become
association lists, `time.Time` instants become integers, and the effectful
environment (registry contents, OS probe answers, store read results) is
passed explicitly.
-/

namespace ThoughtProcess

/-- `ProcessStatus` from process/types.go. -/
inductive ProcessStatus where
  | running
  | exited
  | failed
  | unknown
deriving DecidableEq, Repr

/-- `ProcessInfo` from process/types.go: the persisted metadata for one
managed process.  `exitCode`/`exitedAt` model the `*int`/`*time.Time`
pointer fields. -/
structure ProcessInfo where
  id : String
  command : String
  args : List String
  cwd : String := ""
  env : List (String × String) := []
  tags : List (String × String) := []
  ports : List Int := []
  pid : Int
  startedAt : Int
  exitCode : Option Int := none
  exitedAt : Option Int := none
  logPath : String
deriving DecidableEq, Repr

/-- `ProcessView` from process/types.go: a record plus its computed status. -/
structure ProcessView where
  info : ProcessInfo
  status : ProcessStatus
deriving DecidableEq, Repr

/-- `ListFilter` from process/types.go. -/
structure ListFilter where
  exitedSinceSecs : Int
deriving DecidableEq, Repr

/-- The per-character replacement performed by `escape` in store/dir.go:
`strings.NewReplacer("/", "__", "\\", "__", ":", "_c_")`.  All three old
strings are single characters, so the replacer acts character by
character, left to right. -/
def escapeChar (c : Char) : List Char :=
  if c = '/' then ['_', '_']
  else if c = '\\' then ['_', '_']
  else if c = ':' then ['_', 'c', '_']
  else [c]

/-- `escape` from store/dir.go, on character lists. -/
def escapeL (l : List Char) : List Char :=
  l.flatMap escapeChar

/-- `unescape` from store/dir.go, on character lists:
`strings.NewReplacer("_c_", ":", "__", "/")` scans left to right and at
each position tries the old strings in argument order, first "_c_" and
then "__"; on a match it emits the replacement and continues after the
matched characters, otherwise it copies one character. -/
def unescapeL : List Char → List Char
  | '_' :: 'c' :: '_' :: rest => ':' :: unescapeL rest
  | '_' :: '_' :: rest => '/' :: unescapeL rest
  | c :: rest => c :: unescapeL rest
  | [] => []

/-- `escape` from store/dir.go. -/
def escape (s : String) : String := ⟨escapeL s.data⟩

/-- `unescape` from store/dir.go. -/
def unescape (s : String) : String := ⟨unescapeL s.data⟩

/-- Keys whose characters the escape transform handles injectively: no
backslash (whose image collides with the slash image "__") and no
underscore (which can collide with the escape images themselves).  The
supervisor's own keys `proc:` followed by a hex identifier are all of
this shape. -/
def goodKey (s : String) : Bool :=
  s.data.all fun c => c != '\\' && c != '_'

theorem unescapeL_colon (X : List Char) :
    unescapeL ('_' :: 'c' :: '_' :: X) = ':' :: unescapeL X := rfl

theorem unescapeL_slash (X : List Char) :
    unescapeL ('_' :: '_' :: X) = '/' :: unescapeL X := rfl

theorem unescapeL_keep (c : Char) (X : List Char) (h : c ≠ '_') :
    unescapeL (c :: X) = c :: unescapeL X := by
  rw [unescapeL.eq_def]
  split <;> simp_all

theorem unescapeL_escapeL (l : List Char)
    (h : ∀ c ∈ l, c ≠ '\\' ∧ c ≠ '_') :
    unescapeL (escapeL l) = l := by
  induction l with
  | nil => rfl
  | cons c rest ih =>
    have hc := h c (List.mem_cons_self _ _)
    have hrest : ∀ x ∈ rest, x ≠ '\\' ∧ x ≠ '_' :=
      fun x hx => h x (List.mem_cons_of_mem _ hx)
    by_cases h1 : c = '/'
    · subst h1
      have he : escapeL ('/' :: rest) = '_' :: '_' :: escapeL rest := by
        simp [escapeL, escapeChar]
      rw [he, unescapeL_slash, ih hrest]
    · by_cases h2 : c = ':'
      · subst h2
        have he : escapeL (':' :: rest) = '_' :: 'c' :: '_' :: escapeL rest := by
          simp [escapeL, escapeChar]
        rw [he, unescapeL_colon, ih hrest]
      · have he : escapeL (c :: rest) = c :: escapeL rest := by
          simp [escapeL, escapeChar, h1, h2, hc.1]
        rw [he, unescapeL_keep c _ hc.2, ih hrest]

/-- C3 counterexample: the escaping transform is not reversible.  The key
consisting of a single backslash escapes to "__", which unescapes to "/",
not back to the backslash (escape maps both "/" and "\\" to "__"). -/
theorem escape_not_reversible :
    unescape (escape "\\") = "/" ∧ unescape (escape "\\") ≠ "\\" := by
  constructor <;> decide

/-- C3 amended: for every key containing neither a backslash nor an
underscore (in particular for every supervisor key, of the form `proc:`
plus a hex identifier), unescaping the escaped form yields the key back,
and distinct such keys map to distinct filenames. -/
theorem escape_reversible_goodKey (k : String) (hk : goodKey k = true) :
    unescape (escape k) = k ∧
      ∀ k2, goodKey k2 = true → escape k = escape k2 → k = k2 := by
  have roundtrip : ∀ s : String, goodKey s = true → unescape (escape s) = s := by
    intro s hs
    have hall : ∀ c ∈ s.data, c ≠ '\\' ∧ c ≠ '_' := by
      intro c hc
      have := List.all_eq_true.mp hs c hc
      simpa using this
    show (⟨unescapeL (escapeL s.data)⟩ : String) = s
    rw [unescapeL_escapeL s.data hall]
  refine ⟨roundtrip k hk, ?_⟩
  intro k2 hk2 heq
  have h1 := roundtrip k hk
  have h2 := roundtrip k2 hk2
  rw [← h1, ← h2, heq]

theorem escape_reversible_goodKey_witness :
    goodKey "proc:a1b2" = true ∧ unescape (escape "proc:a1b2") = "proc:a1b2" :=
  ⟨by decide, (escape_reversible_goodKey "proc:a1b2" (by decide)).1⟩

/-- The environment Manager.status consults besides the record itself: the
in-memory running registry (the `m.running` map guarded by `m.mu`), and
the two OS calls of the orphan probe — `os.FindProcess` (`findOk pid` is
whether it returned without error) and `Signal(0)` (`sig0 pid` is whether
the no-op signal succeeded, i.e. the OS reports the process exists). -/
structure StatusEnv where
  live : String → Bool
  findOk : Int → Bool
  sig0 : Int → Bool

/-- `Manager.status`: the three-tier status reconciliation.  Tier 1: a
recorded exit code is authoritative (`exited` when zero, else `failed`).
Tier 2: membership in the in-memory running map.  Tier 3: the signal-0
probe of the recorded PID, with any `FindProcess` failure and any signal
failure both reported as `unknown`. -/
def managerStatus (m : StatusEnv) (info : ProcessInfo) : ProcessStatus :=
  match info.exitCode with
  | some code => if code = 0 then .exited else .failed
  | none =>
    if m.live info.id then .running
    else if !(m.findOk info.pid) then .unknown
    else if m.sig0 info.pid then .running
    else .unknown

/-- C1: the computed status follows the three-tier precedence in strict
order.  A recorded exit code decides the status with no further checks
(the result does not depend on the registry or on the probe); otherwise
registry membership yields `running`; otherwise the status is `running`
exactly when the probe reports the process exists, else `unknown`. -/
theorem status_three_tier (m : StatusEnv) (info : ProcessInfo) :
    (∀ code, info.exitCode = some code →
      managerStatus m info = (if code = 0 then .exited else .failed) ∧
        ∀ m2 : StatusEnv, managerStatus m2 info = managerStatus m info) ∧
    (info.exitCode = none → m.live info.id = true →
      managerStatus m info = .running) ∧
    (info.exitCode = none → m.live info.id = false →
      managerStatus m info =
        (if m.findOk info.pid && m.sig0 info.pid then .running else .unknown)) := by
  refine ⟨?_, ?_, ?_⟩
  · intro code hcode
    constructor
    · simp [managerStatus, hcode]
    · intro m2
      simp [managerStatus, hcode]
  · intro hnone hlive
    simp [managerStatus, hnone, hlive]
  · intro hnone hlive
    cases hfind : m.findOk info.pid <;> cases hsig : m.sig0 info.pid <;>
      simp [managerStatus, hnone, hlive, hfind, hsig]

/-- A concrete status environment: process "w1" is in the running map, the
OS probe finds nothing alive. -/
def envW : StatusEnv :=
  { live := fun s => s == "w1", findOk := fun _ => true, sig0 := fun _ => false }

/-- A concrete record for process "w1" with no recorded exit. -/
def mkStatusInfoW : ProcessInfo :=
  { id := "w1", command := "sleep", args := ["60"], pid := 42,
    startedAt := 0, logPath := "/logs/w1.log" }

theorem status_three_tier_witness :
    (mkStatusInfoW.exitCode = none ∧ envW.live mkStatusInfoW.id = true) ∧
      managerStatus envW mkStatusInfoW = .running := by
  exact ⟨⟨rfl, rfl⟩, (status_three_tier envW mkStatusInfoW).2.1 rfl rfl⟩

/-- The cutoff computed by Manager.List: `cutoff` is assigned only when
`f.ExitedSinceSecs > 0`; the later `!cutoff.IsZero()` test is modelled by
the `Option` (the zero `time.Time` stands for the unassigned variable). -/
def exitedCutoff (now : Int) (f : ListFilter) : Option Int :=
  if f.exitedSinceSecs > 0 then some (now - f.exitedSinceSecs) else none

/-- The drop test inside Manager.List's loop: a record is skipped when the
cutoff is set, the computed status is exited or failed, the record has an
ExitedAt, and ExitedAt is strictly before the cutoff. -/
def dropOld (cutoff : Option Int) (st : ProcessStatus) (info : ProcessInfo) : Bool :=
  match cutoff with
  | none => false
  | some c =>
    (st == .exited || st == .failed) &&
      (match info.exitedAt with
       | some t => decide (t < c)
       | none => false)

/-- Manager.List restricted to the records that were read and decoded
successfully (store listing and JSON decoding are abstracted into the
input list; records that fail either step are skipped by the code before
this logic runs). -/
def managerList (m : StatusEnv) (now : Int) (f : ListFilter)
    (infos : List ProcessInfo) : List ProcessView :=
  infos.filterMap fun info =>
    let st := managerStatus m info
    if dropOld (exitedCutoff now f) st info then none
    else some ⟨info, st⟩

theorem mem_managerList (m : StatusEnv) (now : Int) (f : ListFilter)
    (infos : List ProcessInfo) (info : ProcessInfo) :
    (⟨info, managerStatus m info⟩ : ProcessView) ∈ managerList m now f infos ↔
      info ∈ infos ∧ dropOld (exitedCutoff now f) (managerStatus m info) info = false := by
  constructor
  · intro h
    obtain ⟨a, ha, heq⟩ := List.mem_filterMap.mp h
    by_cases hd : dropOld (exitedCutoff now f) (managerStatus m a) a = true
    · simp [hd] at heq
    · simp [hd] at heq
      obtain ⟨hai, -⟩ := heq
      subst hai
      exact ⟨ha, by simpa using hd⟩
  · intro ⟨hmem, hd⟩
    exact List.mem_filterMap.mpr ⟨info, hmem, by simp [hd]⟩

/-- C5: for threshold N = 0 the filter is disabled and every record is
listed; records whose computed status is running or unknown are always
listed regardless of N; and for N > 0 an exited/failed record is listed
iff its exited_at is not older than now − N (records lacking an
exited_at are kept). -/
theorem list_filter_semantics (m : StatusEnv) (now : Int) (f : ListFilter)
    (infos : List ProcessInfo) (info : ProcessInfo) :
    (f.exitedSinceSecs = 0 →
      ((⟨info, managerStatus m info⟩ : ProcessView) ∈ managerList m now f infos ↔
        info ∈ infos)) ∧
    (managerStatus m info = .running ∨ managerStatus m info = .unknown →
      ((⟨info, managerStatus m info⟩ : ProcessView) ∈ managerList m now f infos ↔
        info ∈ infos)) ∧
    (0 < f.exitedSinceSecs →
      (managerStatus m info = .exited ∨ managerStatus m info = .failed) →
      ((⟨info, managerStatus m info⟩ : ProcessView) ∈ managerList m now f infos ↔
        info ∈ infos ∧
          ¬ ∃ t, info.exitedAt = some t ∧ t < now - f.exitedSinceSecs)) := by
  refine ⟨?_, ?_, ?_⟩
  · intro h0
    rw [mem_managerList]
    have : exitedCutoff now f = none := by
      simp [exitedCutoff, h0]
    simp [this, dropOld]
  · intro hst
    rw [mem_managerList]
    have hdrop : dropOld (exitedCutoff now f) (managerStatus m info) info = false := by
      cases exitedCutoff now f with
      | none => rfl
      | some c =>
        rcases hst with h | h <;> simp [dropOld, h]
    simp [hdrop]
  · intro hpos hst
    rw [mem_managerList]
    have hcut : exitedCutoff now f = some (now - f.exitedSinceSecs) := by
      simp [exitedCutoff, hpos]
    have hflag : ((managerStatus m info == .exited) ||
        (managerStatus m info == .failed)) = true := by
      rcases hst with h | h <;> simp [h]
    cases hEx : info.exitedAt with
    | none => simp [dropOld, hcut, hflag, hEx]
    | some t => simp [dropOld, hcut, hflag, hEx]

theorem list_filter_semantics_witness :
    (mkStatusInfoW.exitedAt = none ∧
      managerStatus envW mkStatusInfoW = .running) ∧
      ((⟨mkStatusInfoW, managerStatus envW mkStatusInfoW⟩ : ProcessView) ∈
          managerList envW 1000 ⟨5⟩ [mkStatusInfoW] ↔
        mkStatusInfoW ∈ [mkStatusInfoW]) := by
  refine ⟨⟨rfl, rfl⟩, ?_⟩
  exact (list_filter_semantics envW 1000 ⟨5⟩ [mkStatusInfoW] mkStatusInfoW).2.1
    (Or.inl rfl)

/-- `maxLogRead` from the manager: 100 KiB. -/
def maxLogRead : Int := 100 * 1024

/-- The read performed by Manager.GetLogs once the log file is open: stat
the file; when its size exceeds maxLogRead, seek to size − maxLogRead;
then read to end of file.  The file content is modelled as a byte list,
and seek-then-read-all returns the suffix from the offset on. -/
def logTail (content : List Nat) : List Nat :=
  let size : Int := content.length
  let offset : Int := if size > maxLogRead then size - maxLogRead else 0
  content.drop offset.toNat

/-- C7: on a log file strictly larger than 100 KiB (102400 bytes) GetLogs
returns exactly the trailing 102400 bytes — the returned data has length
102400 and the file is the untouched prefix followed by it; on a file at
or below the cap it returns the entire content. -/
theorem getLogs_cap (content : List Nat) :
    ((content.length : Int) > maxLogRead →
      (logTail content).length = 102400 ∧
        content.take (content.length - 102400) ++ logTail content = content) ∧
    ((content.length : Int) ≤ maxLogRead → logTail content = content) := by
  constructor
  · intro h
    have hlen : content.length > 102400 := by
      have : (102400 : Int) < (content.length : Int) := by
        simpa [maxLogRead] using h
      exact_mod_cast this
    have hoff : ((content.length : Int) - maxLogRead).toNat = content.length - 102400 := by
      simp only [maxLogRead]
      omega
    have hlt : logTail content = content.drop (content.length - 102400) := by
      simp only [logTail, if_pos h, hoff]
    constructor
    · rw [hlt, List.length_drop]
      omega
    · rw [hlt, List.take_append_drop]
  · intro h
    have : ¬ ((content.length : Int) > maxLogRead) := by omega
    simp [logTail, this]

theorem getLogs_cap_witness :
    ((List.replicate 102401 (0 : Nat)).length : Int) > maxLogRead ∧
      (logTail (List.replicate 102401 (0 : Nat))).length = 102400 := by
  have h : ((List.replicate 102401 (0 : Nat)).length : Int) > maxLogRead := by
    rw [List.length_replicate]
    norm_num [maxLogRead]
  exact ⟨h, ((getLogs_cap (List.replicate 102401 (0 : Nat))).1 h).1⟩

/-- The polling loop of Manager.Kill after SIGTERM (signal 15) was sent.
Each element of `polls` is one 100 ms re-read of the record from the
store before the 5-second deadline (`none` models a Get or decode
failure, in which case the previous info is kept, as the code only
overwrites `info` on success).  When `polls` is exhausted the deadline
fires: the process is SIGKILLed (signal 9), the code settles briefly,
re-reads once more (`finalRead`) and returns whatever status is now
computed.  The second component lists the signals sent. -/
def killLoop (m : StatusEnv) (finalRead : Option ProcessInfo) :
    List (Option ProcessInfo) → ProcessInfo → ProcessView × List Int
  | [], info =>
    let i := finalRead.getD info
    (⟨i, managerStatus m i⟩, [15, 9])
  | r :: rest, info =>
    let i := r.getD info
    if managerStatus m i ≠ .running then (⟨i, managerStatus m i⟩, [15])
    else killLoop m finalRead rest i

/-- Manager.Kill for a record that was found in the store and decoded
(the NotFound and decode-failure returns happen before this logic): if
the computed status is not running, return the current view with no
signal; otherwise SIGTERM the PID and poll until the exit is recorded or
the deadline escalates to SIGKILL.  `os.FindProcess` never fails on
Unix, so its error return is not modelled. -/
def managerKill (m : StatusEnv) (info : ProcessInfo)
    (polls : List (Option ProcessInfo)) (finalRead : Option ProcessInfo) :
    ProcessView × List Int :=
  let st := managerStatus m info
  if st ≠ .running then (⟨info, st⟩, [])
  else killLoop m finalRead polls info

theorem killLoop_view_shape (m : StatusEnv) (finalRead : Option ProcessInfo)
    (polls : List (Option ProcessInfo)) (info : ProcessInfo) :
    ∃ i, (killLoop m finalRead polls info).1 = ⟨i, managerStatus m i⟩ := by
  induction polls generalizing info with
  | nil => exact ⟨finalRead.getD info, rfl⟩
  | cons r rest ih =>
    by_cases h : managerStatus m (r.getD info) ≠ .running
    · exact ⟨r.getD info, by simp [killLoop, h]⟩
    · have := ih (r.getD info)
      simpa [killLoop, h] using this

theorem kill_view_shape (m : StatusEnv) (info : ProcessInfo)
    (polls : List (Option ProcessInfo)) (finalRead : Option ProcessInfo) :
    ∃ i, (managerKill m info polls finalRead).1 = ⟨i, managerStatus m i⟩ := by
  by_cases h : managerStatus m info ≠ .running
  · exact ⟨info, by simp [managerKill, h]⟩
  · have := killLoop_view_shape m finalRead polls info
    simpa [managerKill, h] using this

theorem status_terminal_exitCode (m : StatusEnv) (info : ProcessInfo)
    (h : managerStatus m info = .exited ∨ managerStatus m info = .failed) :
    ∃ c, info.exitCode = some c := by
  cases hc : info.exitCode with
  | some c => exact ⟨c, rfl⟩
  | none =>
    exfalso
    rcases h with h | h <;>
    · rw [managerStatus, hc] at h
      by_cases hl : m.live info.id <;>
        by_cases hf : m.findOk info.pid <;>
          by_cases hs : m.sig0 info.pid <;>
            simp [hl, hf, hs] at h

theorem status_exitCode_fixed (m m2 : StatusEnv) (info : ProcessInfo)
    (c : Int) (h : info.exitCode = some c) :
    managerStatus m2 info = managerStatus m info := by
  simp [managerStatus, h]

/-- C6: a Kill on a record whose computed status is not running returns
the current view unchanged and sends no signals; consequently, when a
Kill has returned a view with terminal status (exited or failed), a
second Kill on the state it left behind returns the same terminal view
and sends no further signals, even under a different registry/probe
environment. -/
theorem kill_idempotent_noop :
    (∀ (m : StatusEnv) (info : ProcessInfo) polls finalRead,
      managerStatus m info ≠ .running →
        managerKill m info polls finalRead = (⟨info, managerStatus m info⟩, [])) ∧
    (∀ (m : StatusEnv) (info : ProcessInfo) polls finalRead
        (m2 : StatusEnv) polls2 finalRead2 (v : ProcessView) (sigs : List Int),
      managerKill m info polls finalRead = (v, sigs) →
      (v.status = .exited ∨ v.status = .failed) →
        managerKill m2 v.info polls2 finalRead2 = (v, [])) := by
  constructor
  · intro m info polls finalRead h
    simp [managerKill, h]
  · intro m info polls finalRead m2 polls2 finalRead2 v sigs hrun hterm
    obtain ⟨i, hi⟩ := kill_view_shape m info polls finalRead
    have hv : v = ⟨i, managerStatus m i⟩ := by
      rw [← hi, hrun]
    subst hv
    have hterm2 : managerStatus m i = .exited ∨ managerStatus m i = .failed := hterm
    obtain ⟨c, hc⟩ := status_terminal_exitCode m i hterm2
    have hsame : managerStatus m2 i = managerStatus m i :=
      status_exitCode_fixed m m2 i c hc
    have hnotrun : managerStatus m2 i ≠ .running := by
      rw [hsame]
      rcases hterm2 with h | h <;> simp [h]
    show managerKill m2 i polls2 finalRead2 = (⟨i, managerStatus m i⟩, [])
    rw [← hsame]
    simp [managerKill, hnotrun]

/-- A record that has already recorded a zero exit. -/
def exitedInfoW : ProcessInfo :=
  { id := "w2", command := "true", args := [], pid := 43,
    startedAt := 0, exitCode := some 0, exitedAt := some 7,
    logPath := "/logs/w2.log" }

theorem kill_idempotent_noop_witness :
    managerStatus envW exitedInfoW ≠ .running ∧
      managerKill envW exitedInfoW [] none =
        (⟨exitedInfoW, managerStatus envW exitedInfoW⟩, []) := by
  have h : managerStatus envW exitedInfoW ≠ .running := by decide
  exact ⟨h, kill_idempotent_noop.1 envW exitedInfoW [] none h⟩

/-- Errors from Manager.Start, tagged by the fmt.Errorf context at each
return site; each carries the underlying OS/filesystem error. -/
inductive StartError where
  | generatingID (e : String)
  | creatingLog (e : String)
  | starting (e : String)
  | persisting (e : String)
deriving DecidableEq, Repr

/-- The externally visible actions Manager.Start performs, in program
order. -/
inductive StartAction where
  | createdLog
  | closedLog
  | spawned
  | killedChild
  | persisted
  | registered
deriving DecidableEq, Repr

/-- Outcomes of the effectful calls made by Manager.Start: generateID,
os.Create of the log file, cmd.Start (the ok value is the child PID),
and m.persist of the new record. -/
structure StartEnv where
  genID : Except String String
  createLog : Except String Unit
  spawn : Except String Int
  persist : Except String Unit
  now : Int

/-- Manager.Start up to its return: the control flow of the Go function
with its actions recorded in order.  On generateID or os.Create failure
nothing was spawned; on cmd.Start failure the log file is closed and the
error returned; on persist failure the just-spawned child is killed and
the log closed before the error is returned; on success the record is
persisted, the handle registered, and the view returned with status
running.  The background waiter launched on success is modelled
separately by `waiterRecordExit`. -/
def managerStart (e : StartEnv) (logDir command : String) (args : List String)
    (cwd : String) (tags : List (String × String)) (ports : List Int) :
    Except StartError ProcessView × List StartAction :=
  match e.genID with
  | .error err => (.error (.generatingID err), [])
  | .ok id =>
    match e.createLog with
    | .error err => (.error (.creatingLog err), [])
    | .ok _ =>
      match e.spawn with
      | .error err => (.error (.starting err), [.createdLog, .closedLog])
      | .ok pid =>
        let info : ProcessInfo :=
          { id := id, command := command, args := args, cwd := cwd,
            tags := tags, ports := ports, pid := pid, startedAt := e.now,
            logPath := logDir ++ "/" ++ id ++ ".log" }
        match e.persist with
        | .error err =>
          (.error (.persisting err),
            [.createdLog, .spawned, .killedChild, .closedLog])
        | .ok _ =>
          (.ok ⟨info, .running⟩,
            [.createdLog, .spawned, .persisted, .registered])

/-- C4: when the child was spawned and the immediately-following persist
fails, Start kills the just-spawned child and fails with the persist
error wrapped as a start failure; and on every reported-failure path of
Start in which a child was spawned, a kill of that child was issued, so
no live untracked process remains behind. -/
theorem start_no_orphan_on_failure (e : StartEnv) (logDir command : String)
    (args : List String) (cwd : String) (tags : List (String × String))
    (ports : List Int) :
    (∀ id pid perr, e.genID = .ok id → e.createLog = .ok () →
      e.spawn = .ok pid → e.persist = .error perr →
      (managerStart e logDir command args cwd tags ports).1 =
          .error (.persisting perr) ∧
        StartAction.killedChild ∈ (managerStart e logDir command args cwd tags ports).2) ∧
    (∀ err, (managerStart e logDir command args cwd tags ports).1 = .error err →
      StartAction.spawned ∈ (managerStart e logDir command args cwd tags ports).2 →
        StartAction.killedChild ∈ (managerStart e logDir command args cwd tags ports).2) := by
  constructor
  · intro id pid perr hg hcl hspawn hpersist
    simp [managerStart, hg, hcl, hspawn, hpersist]
  · intro err herr hspawned
    cases hg : e.genID with
    | error e2 => simp [managerStart, hg] at hspawned
    | ok id =>
      cases hcl : e.createLog with
      | error e2 => simp [managerStart, hg, hcl] at hspawned
      | ok u =>
        cases hs : e.spawn with
        | error e2 => simp [managerStart, hg, hcl, hs] at hspawned
        | ok pid =>
          cases hp : e.persist with
          | error e2 => simp [managerStart, hg, hcl, hs, hp]
          | ok u2 => simp [managerStart, hg, hcl, hs, hp] at herr

/-- A Start environment in which the spawn succeeds but persisting the
record fails. -/
def startEnvW : StartEnv :=
  { genID := .ok "abc12345", createLog := .ok (), spawn := .ok 77,
    persist := .error "disk full", now := 5 }

theorem start_no_orphan_on_failure_witness :
    (startEnvW.spawn = .ok 77 ∧ startEnvW.persist = .error "disk full") ∧
      (managerStart startEnvW "/logs" "true" [] "" [] []).1 =
          .error (.persisting "disk full") ∧
        StartAction.killedChild ∈ (managerStart startEnvW "/logs" "true" [] "" [] []).2 :=
  ⟨⟨rfl, rfl⟩,
    (start_no_orphan_on_failure startEnvW "/logs" "true" [] "" [] []).1
      "abc12345" 77 "disk full" rfl rfl rfl rfl⟩

/-- The ProcessInfo that Manager.Start builds and persists: all spawn-time
fields set, exitCode and exitedAt left unset. -/
def mkStartInfo (id command : String) (args : List String) (cwd : String)
    (tags : List (String × String)) (ports : List Int) (pid : Int)
    (startedAt : Int) (logPath : String) : ProcessInfo :=
  { id := id, command := command, args := args, cwd := cwd, tags := tags,
    ports := ports, pid := pid, startedAt := startedAt, logPath := logPath }

/-- The update performed by the background waiter once cmd.Wait returns:
it sets exitedAt and exitCode together on the captured record and
persists it once. -/
def waiterRecordExit (info : ProcessInfo) (exitTime code : Int) : ProcessInfo :=
  { info with exitedAt := some exitTime, exitCode := some code }

/-- The full sequence of values ever persisted for one process: the
record written by Start before it returns, then the single waiter update
of that same record.  No other code path writes the record. -/
def persistTrace (id command : String) (args : List String) (cwd : String)
    (tags : List (String × String)) (ports : List Int) (pid : Int)
    (startedAt : Int) (logPath : String) (exitTime code : Int) :
    List ProcessInfo :=
  [mkStartInfo id command args cwd tags ports pid startedAt logPath,
   waiterRecordExit (mkStartInfo id command args cwd tags ports pid startedAt logPath)
     exitTime code]

/-- C10: along the persisted lifecycle of a process, exit_code and
exited_at are both absent (in the record Start writes) or both present
(in the record the waiter writes), never one without the other; the
waiter sets them together, and across consecutive persisted versions a
field that is set is never changed afterwards. -/
theorem exit_fields_invariant (id command : String) (args : List String)
    (cwd : String) (tags : List (String × String)) (ports : List Int)
    (pid startedAt exitTime code : Int) (logPath : String) :
    (∀ r ∈ persistTrace id command args cwd tags ports pid startedAt logPath
        exitTime code,
      (r.exitCode.isSome ↔ r.exitedAt.isSome)) ∧
    (mkStartInfo id command args cwd tags ports pid startedAt logPath).exitCode
        = none ∧
    (mkStartInfo id command args cwd tags ports pid startedAt logPath).exitedAt
        = none ∧
    (waiterRecordExit (mkStartInfo id command args cwd tags ports pid startedAt
        logPath) exitTime code).exitCode = some code ∧
    (waiterRecordExit (mkStartInfo id command args cwd tags ports pid startedAt
        logPath) exitTime code).exitedAt = some exitTime ∧
    List.Chain'
      (fun a b => (∀ x, a.exitCode = some x → b.exitCode = some x) ∧
        (∀ x, a.exitedAt = some x → b.exitedAt = some x))
      (persistTrace id command args cwd tags ports pid startedAt logPath
        exitTime code) := by
  refine ⟨?_, rfl, rfl, rfl, rfl, ?_⟩
  · intro r hr
    simp [persistTrace] at hr
    rcases hr with h | h <;> subst h <;>
      simp [mkStartInfo, waiterRecordExit]
  · simp [persistTrace, mkStartInfo, waiterRecordExit]

theorem exit_fields_invariant_witness :
    (waiterRecordExit (mkStartInfo "a" "c" [] "" [] [] 1 0 "l") 9 0 ∈
        persistTrace "a" "c" [] "" [] [] 1 0 "l" 9 0) ∧
      ((waiterRecordExit (mkStartInfo "a" "c" [] "" [] [] 1 0 "l") 9 0).exitCode.isSome ↔
        (waiterRecordExit (mkStartInfo "a" "c" [] "" [] [] 1 0 "l") 9 0).exitedAt.isSome) := by
  constructor
  · simp [persistTrace]
  · exact (exit_fields_invariant "a" "c" [] "" [] [] 1 0 9 0 "l").1
      (waiterRecordExit (mkStartInfo "a" "c" [] "" [] [] 1 0 "l") 9 0)
      (by simp [persistTrace])

/-- Modelled from the spec: the Manager.Start variant that accepts an
`env` argument (declared in `process/interface.go` and invoked by
`tools/process.go` and the dashboard) is not among these sources; per the
spec, provided environment variables are merged on top of the
supervisor's own environment — inherit, then override specified keys.
The environment block handed to the child is the inherited block with
the provided pairs appended. -/
def mergeEnv (inherited provided : List (String × String)) :
    List (String × String) :=
  inherited ++ provided

/-- The effective value a spawned process observes for a variable in its
environment block: the last binding of the key wins, as with duplicate
entries in an exec environment. -/
def envLookup (e : List (String × String)) (k : String) : Option String :=
  e.foldl (fun acc p => if p.1 = k then some p.2 else acc) none

theorem envFold_eq_none_iff (k : String) (l : List (String × String))
    (acc : Option String) :
    l.foldl (fun acc p => if p.1 = k then some p.2 else acc) acc = none ↔
      acc = none ∧ ∀ p ∈ l, p.1 ≠ k := by
  induction l generalizing acc with
  | nil => simp
  | cons q rest ih =>
    by_cases hq : q.1 = k
    · simp only [List.foldl_cons, if_pos hq, ih]
      simp [hq]
    · simp only [List.foldl_cons, if_neg hq, ih]
      simp [hq]

theorem envFold_indep (k : String) (l : List (String × String))
    (acc1 acc2 : Option String) (h : ∃ p ∈ l, p.1 = k) :
    l.foldl (fun acc p => if p.1 = k then some p.2 else acc) acc1 =
      l.foldl (fun acc p => if p.1 = k then some p.2 else acc) acc2 := by
  induction l generalizing acc1 acc2 with
  | nil => simp at h
  | cons q rest ih =>
    by_cases hq : q.1 = k
    · simp [List.foldl_cons, if_pos hq]
    · obtain ⟨p, hp, hpk⟩ := h
      rcases List.mem_cons.mp hp with he | hrest
      · exact absurd (he ▸ hpk) hq
      · simp only [List.foldl_cons, if_neg hq]
        exact ih acc1 acc2 ⟨p, hrest, hpk⟩

theorem envFold_absent (k : String) (l : List (String × String))
    (acc : Option String) (h : ∀ p ∈ l, p.1 ≠ k) :
    l.foldl (fun acc p => if p.1 = k then some p.2 else acc) acc = acc := by
  induction l generalizing acc with
  | nil => rfl
  | cons q rest ih =>
    have hq : q.1 ≠ k := h q (List.mem_cons_self _ _)
    simp only [List.foldl_cons, if_neg hq]
    exact ih _ (fun p hp => h p (List.mem_cons_of_mem _ hp))

/-- C8 (spec-modelled): in the child's merged environment, every key the
caller provides resolves to the provided value — added when absent from
the inherited block, replacing the inherited binding when present — and
every key the caller does not provide resolves to its inherited value. -/
theorem start_env_merge (inherited provided : List (String × String))
    (k : String) :
    (∀ v, envLookup provided k = some v →
      envLookup (mergeEnv inherited provided) k = some v) ∧
    (envLookup provided k = none →
      envLookup (mergeEnv inherited provided) k = envLookup inherited k) := by
  constructor
  · intro v hv
    have hex : ∃ p ∈ provided, p.1 = k := by
      by_contra hns
      push_neg at hns
      have : envLookup provided k = none :=
        (envFold_eq_none_iff k provided none).mpr ⟨rfl, hns⟩
      rw [this] at hv
      exact Option.noConfusion hv
    show (inherited ++ provided).foldl _ none = some v
    rw [List.foldl_append]
    calc provided.foldl (fun acc p => if p.1 = k then some p.2 else acc)
          (inherited.foldl (fun acc p => if p.1 = k then some p.2 else acc) none)
        = provided.foldl (fun acc p => if p.1 = k then some p.2 else acc) none :=
          envFold_indep k provided _ none hex
      _ = some v := hv
  · intro hnone
    have habs : ∀ p ∈ provided, p.1 ≠ k :=
      ((envFold_eq_none_iff k provided none).mp hnone).2
    show (inherited ++ provided).foldl _ none = envLookup inherited k
    rw [List.foldl_append]
    exact envFold_absent k provided _ habs

theorem start_env_merge_witness :
    envLookup [("PORT", "3001")] "PORT" = some "3001" ∧
      envLookup (mergeEnv [("PATH", "/bin"), ("PORT", "80")] [("PORT", "3001")])
          "PORT" = some "3001" ∧
      envLookup [("PORT", "3001")] "PATH" = none ∧
      envLookup (mergeEnv [("PATH", "/bin"), ("PORT", "80")] [("PORT", "3001")])
          "PATH" =
        envLookup [("PATH", "/bin"), ("PORT", "80")] "PATH" :=
  ⟨rfl,
    (start_env_merge [("PATH", "/bin"), ("PORT", "80")] [("PORT", "3001")]
      "PORT").1 "3001" rfl,
    rfl,
    (start_env_merge [("PATH", "/bin"), ("PORT", "80")] [("PORT", "3001")]
      "PATH").2 rfl⟩

/-- `strings.HasPrefix(s, p)` from the Go standard library: whether `s`
begins with `p`, modelled on the character lists. -/
def hasPrefix (s p : String) : Bool :=
  p.data.isPrefixOf s.data

theorem hasPrefix_empty (k : String) : hasPrefix k "" = true := by
  show ("" : String).data.isPrefixOf k.data = true
  have hd : ("" : String).data = [] := rfl
  rw [hd]
  simp [List.isPrefixOf]

/-- Equality of Get results is decidable, so concrete store states can be
checked by evaluation. -/
instance : DecidableEq (Except String String) := fun a b =>
  match a, b with
  | .ok x, .ok y => decidable_of_iff (x = y) (by simp)
  | .error x, .error y => decidable_of_iff (x = y) (by simp)
  | .ok _, .error _ => isFalse (by simp)
  | .error _, .ok _ => isFalse (by simp)

/-- DirStore.Get on a modelled directory (filename → content): read the
file at the escaped key path; a missing file is reported as "key not
found". -/
def dirGet (dir : String → Option String) (key : String) : Except String String :=
  match dir (escape key) with
  | some v => Except.ok v
  | none => Except.error "key not found"

/-- One os.ReadDir entry. -/
structure DirEntry where
  name : String
  isDir : Bool
deriving DecidableEq, Repr

/-- The loop of DirStore.List: skip directories and in-flight temp files
(names beginning ".tmp-"), unescape each remaining name, keep keys that
start with `pre`, and stop as soon as `limit` (when positive) keys have
been collected. -/
def listGo (pre : String) (limit : Int) : List DirEntry → List String → List String
  | [], acc => acc
  | e :: rest, acc =>
    if e.isDir || hasPrefix e.name ".tmp-" then listGo pre limit rest acc
    else if hasPrefix (unescape e.name) pre then
      (if limit > 0 ∧ limit ≤ ((acc ++ [unescape e.name]).length : Int)
       then acc ++ [unescape e.name]
       else listGo pre limit rest (acc ++ [unescape e.name]))
    else listGo pre limit rest acc

/-- DirStore.List on a modelled directory listing. -/
def dirList (entries : List DirEntry) (pre : String) (limit : Int) : List String :=
  listGo pre limit entries []

/-- What one directory entry contributes to an unbounded listing. -/
def cleanEntry (pre : String) (e : DirEntry) : Option String :=
  if e.isDir || hasPrefix e.name ".tmp-" then none
  else if hasPrefix (unescape e.name) pre then some (unescape e.name)
  else none

theorem cleanEntry_eq_some (pre : String) (e : DirEntry) (k : String) :
    cleanEntry pre e = some k ↔
      e.isDir = false ∧ hasPrefix e.name ".tmp-" = false ∧
        unescape e.name = k ∧ hasPrefix k pre = true := by
  constructor
  · intro h
    by_cases h1 : (e.isDir || hasPrefix e.name ".tmp-") = true
    · rw [cleanEntry, if_pos h1] at h
      exact Option.noConfusion h
    · have h1f : e.isDir = false ∧ hasPrefix e.name ".tmp-" = false := by
        simpa using h1
      by_cases h2 : hasPrefix (unescape e.name) pre = true
      · rw [cleanEntry, if_neg h1, if_pos h2] at h
        have hk := Option.some.inj h
        exact ⟨h1f.1, h1f.2, hk, hk ▸ h2⟩
      · rw [cleanEntry, if_neg h1, if_neg h2] at h
        exact Option.noConfusion h
  · intro ⟨hd, ht, hu, hp⟩
    subst hu
    rw [cleanEntry, if_neg (by simp [hd, ht]), if_pos hp]

theorem listGo_sound (pre : String) (limit : Int) :
    ∀ (es : List DirEntry) (acc : List String),
      (∀ x ∈ acc, hasPrefix x pre = true) →
      ∀ x ∈ listGo pre limit es acc, hasPrefix x pre = true := by
  intro es
  induction es with
  | nil =>
    intro acc hacc x hx
    exact hacc x (by simpa [listGo] using hx)
  | cons e rest ih =>
    intro acc hacc x hx
    simp only [listGo] at hx
    by_cases h1 : (e.isDir || hasPrefix e.name ".tmp-") = true
    · rw [if_pos h1] at hx
      exact ih acc hacc x hx
    · rw [if_neg h1] at hx
      by_cases h2 : hasPrefix (unescape e.name) pre = true
      · rw [if_pos h2] at hx
        have hacc2 : ∀ y ∈ acc ++ [unescape e.name], hasPrefix y pre = true := by
          intro y hy
          rcases List.mem_append.mp hy with hy | hy
          · exact hacc y hy
          · rw [List.mem_singleton.mp hy]
            exact h2
        by_cases h3 : limit > 0 ∧ limit ≤ ((acc ++ [unescape e.name]).length : Int)
        · rw [if_pos h3] at hx
          exact hacc2 x hx
        · rw [if_neg h3] at hx
          exact ih _ hacc2 x hx
      · rw [if_neg h2] at hx
        exact ih acc hacc x hx

theorem listGo_length (pre : String) (limit : Int) (hpos : 0 < limit) :
    ∀ (es : List DirEntry) (acc : List String),
      (acc.length : Int) < limit →
      ((listGo pre limit es acc).length : Int) ≤ limit := by
  intro es
  induction es with
  | nil =>
    intro acc h
    simp only [listGo]
    exact le_of_lt h
  | cons e rest ih =>
    intro acc h
    simp only [listGo]
    by_cases h1 : (e.isDir || hasPrefix e.name ".tmp-") = true
    · rw [if_pos h1]
      exact ih acc h
    · rw [if_neg h1]
      by_cases h2 : hasPrefix (unescape e.name) pre = true
      · rw [if_pos h2]
        by_cases h3 : limit > 0 ∧ limit ≤ ((acc ++ [unescape e.name]).length : Int)
        · rw [if_pos h3]
          have hlen : ((acc ++ [unescape e.name]).length : Int) = (acc.length : Int) + 1 := by
            simp
          omega
        · rw [if_neg h3]
          have hlt : ((acc ++ [unescape e.name]).length : Int) < limit := by
            have hlen : ((acc ++ [unescape e.name]).length : Int) = (acc.length : Int) + 1 := by
              simp
            rcases not_and_or.mp h3 with hc | hc
            · exact absurd hpos (by simpa using hc)
            · omega
          exact ih _ hlt
      · rw [if_neg h2]
        exact ih acc h

theorem listGo_zero_filterMap (pre : String) :
    ∀ (es : List DirEntry) (acc : List String),
      listGo pre 0 es acc = acc ++ es.filterMap (cleanEntry pre) := by
  intro es
  induction es with
  | nil => intro acc; simp [listGo]
  | cons e rest ih =>
    intro acc
    have h3 : ∀ l : List String, ¬((0 : Int) > 0 ∧ (0 : Int) ≤ (l.length : Int)) := by
      intro l hc
      exact absurd hc.1 (by norm_num)
    simp only [listGo]
    by_cases h1 : (e.isDir || hasPrefix e.name ".tmp-") = true
    · rw [if_pos h1, ih acc, List.filterMap_cons]
      have hce : cleanEntry pre e = none := by
        rw [cleanEntry, if_pos h1]
      rw [hce]
    · rw [if_neg h1, List.filterMap_cons]
      by_cases h2 : hasPrefix (unescape e.name) pre = true
      · have hce : cleanEntry pre e = some (unescape e.name) := by
          rw [cleanEntry, if_neg h1, if_pos h2]
        rw [if_pos h2, if_neg (h3 _), ih (acc ++ [unescape e.name]), hce]
        simp
      · have hce : cleanEntry pre e = none := by
          rw [cleanEntry, if_neg h1, if_neg h2]
        rw [if_neg h2, ih acc, hce]

theorem mem_dirList_zero (entries : List DirEntry) (pre : String) (k : String) :
    k ∈ dirList entries pre 0 ↔
      ∃ e ∈ entries, e.isDir = false ∧ hasPrefix e.name ".tmp-" = false ∧
        unescape e.name = k ∧ hasPrefix k pre = true := by
  rw [dirList, listGo_zero_filterMap, List.nil_append, List.mem_filterMap]
  constructor
  · intro ⟨e, he, hce⟩
    exact ⟨e, he, (cleanEntry_eq_some pre e k).mp hce⟩
  · intro ⟨e, he, hp⟩
    exact ⟨e, he, (cleanEntry_eq_some pre e k).mpr hp⟩

/-- C9 counterexample: the key consisting of a single backslash can be
present in the store (Get finds it, at the escaped filename "__"), and
every key starts with the empty name part, but List with the empty name
part and no limit does not return it — it returns "/" (the unescaping of
its filename) instead. -/
theorem list_misses_stored_key :
    dirGet (fun x => if x = escape "\\" then some "v" else none) "\\" =
        Except.ok "v" ∧
      hasPrefix "\\" "" = true ∧
      "\\" ∉ dirList [⟨escape "\\", false⟩] "" 0 ∧
      dirList [⟨escape "\\", false⟩] "" 0 = ["/"] := by
  refine ⟨by decide, by decide, by decide, by decide⟩

/-- C9 amended: every key List returns starts with the requested name
part; a positive limit caps the number of returned keys; and for every
stored key whose escaped filename round-trips (no backslash/underscore
collision) and does not begin with the temp-file marker ".tmp-", List
with limit 0 returns that key iff it starts with the requested name
part, the empty name part matching every such stored key. -/
theorem list_prefix_limit (entries : List DirEntry) (pre : String)
    (limit : Int) (k : String) :
    (∀ k2 ∈ dirList entries pre limit, hasPrefix k2 pre = true) ∧
    (0 < limit → ((dirList entries pre limit).length : Int) ≤ limit) ∧
    ((⟨escape k, false⟩ : DirEntry) ∈ entries → unescape (escape k) = k →
      hasPrefix (escape k) ".tmp-" = false →
      ((k ∈ dirList entries pre 0 ↔ hasPrefix k pre = true) ∧
        k ∈ dirList entries "" 0)) := by
  refine ⟨?_, ?_, ?_⟩
  · intro k2 hk2
    exact listGo_sound pre limit entries [] (by simp) k2 hk2
  · intro hpos
    exact listGo_length pre limit hpos entries [] (by simpa using hpos)
  · intro hmem hround htmp
    constructor
    · constructor
      · intro hk
        obtain ⟨e2, _, hp⟩ := (mem_dirList_zero entries pre k).mp hk
        exact hp.2.2.2
      · intro hpre
        exact (mem_dirList_zero entries pre k).mpr
          ⟨⟨escape k, false⟩, hmem, rfl, htmp, hround, hpre⟩
    · exact (mem_dirList_zero entries "" k).mpr
        ⟨⟨escape k, false⟩, hmem, rfl, htmp, hround, hasPrefix_empty k⟩

theorem list_prefix_limit_witness :
    ((⟨escape "proc:a1", false⟩ : DirEntry) ∈ [(⟨escape "proc:a1", false⟩ : DirEntry)] ∧
      unescape (escape "proc:a1") = "proc:a1" ∧
      hasPrefix (escape "proc:a1") ".tmp-" = false) ∧
      ("proc:a1" ∈ dirList [⟨escape "proc:a1", false⟩] "proc:" 0 ↔
        hasPrefix "proc:a1" "proc:" = true) :=
  ⟨⟨by decide, by decide, by decide⟩,
    ((list_prefix_limit [⟨escape "proc:a1", false⟩] "proc:" 0 "proc:a1").2.2
      (by decide) (by decide) (by decide)).1⟩

/-- Phase of one in-flight DirStore.Set call: not yet started; temp file
created (os.CreateTemp); temp fully written and closed (WriteString +
Close succeeded); renamed over the destination (os.Rename); or aborted
(an error path removed the temp). -/
inductive WPhase where
  | start
  | created (t : String)
  | written (t : String)
  | renamed
  | aborted
deriving DecidableEq, Repr

/-- The shared directory (filename → content) plus the phase of each of
`n` concurrent Set calls targeting the same key. -/
structure WSys (n : Nat) where
  dir : String → Option String
  ph : Fin n → WPhase

/-- Interleaved small steps of `n` concurrent DirStore.Set calls that
write `values i` to the same destination file `dest` (the escaped key
path).  A crash at any point is simply a reachable intermediate state.
`create` models os.CreateTemp: it picks a fresh ".tmp-"-prefixed name
that no existing file has and creates it empty.  `write` models partial
WriteString progress, visible only in the temp file.  `finishWrite`
models WriteString completing and Close succeeding, leaving the full
value in the temp.  `abort` models the error paths that remove the temp.
`rename` models os.Rename: it atomically installs the temp's current
content at `dest` and removes the temp. -/
inductive SetStep {n : Nat} (dest : String) (values : Fin n → String) :
    WSys n → WSys n → Prop where
  | create (s : WSys n) (i : Fin n) (t : String) :
      s.ph i = .start → hasPrefix t ".tmp-" = true → s.dir t = none →
      SetStep dest values s
        ⟨fun x => if x = t then some "" else s.dir x,
         fun j => if j = i then .created t else s.ph j⟩
  | write (s : WSys n) (i : Fin n) (t c : String) :
      s.ph i = .created t →
      SetStep dest values s
        ⟨fun x => if x = t then some c else s.dir x, s.ph⟩
  | finishWrite (s : WSys n) (i : Fin n) (t : String) :
      s.ph i = .created t →
      SetStep dest values s
        ⟨fun x => if x = t then some (values i) else s.dir x,
         fun j => if j = i then .written t else s.ph j⟩
  | abort (s : WSys n) (i : Fin n) (t : String) :
      s.ph i = .created t →
      SetStep dest values s
        ⟨fun x => if x = t then none else s.dir x,
         fun j => if j = i then .aborted else s.ph j⟩
  | rename (s : WSys n) (i : Fin n) (t c : String) :
      s.ph i = .written t → s.dir t = some c →
      SetStep dest values s
        ⟨fun x => if x = dest then some c else if x = t then none else s.dir x,
         fun j => if j = i then .renamed else s.ph j⟩

/-- The temp file a writer currently owns, if any. -/
def activeTemp : WPhase → Option String
  | .created t => some t
  | .written t => some t
  | _ => none

/-- Invariant of the concurrent-write system: every active temp file is
".tmp-"-named and exists; a fully-written temp holds its writer's whole
value; active temps are owned by at most one writer; and the destination
file holds either its initial content or the whole value of a writer
whose rename completed. -/
def WInv {n : Nat} (dest : String) (values : Fin n → String)
    (init : Option String) (s : WSys n) : Prop :=
  (∀ i t, activeTemp (s.ph i) = some t →
    hasPrefix t ".tmp-" = true ∧ ∃ c, s.dir t = some c) ∧
  (∀ i t, s.ph i = .written t → s.dir t = some (values i)) ∧
  (∀ i j t, activeTemp (s.ph i) = some t → activeTemp (s.ph j) = some t → i = j) ∧
  (s.dir dest = init ∨ ∃ i, s.ph i = .renamed ∧ s.dir dest = some (values i))

theorem active_ne_dest {dest t : String}
    (ht : hasPrefix t ".tmp-" = true) (hdest : hasPrefix dest ".tmp-" = false) :
    t ≠ dest := by
  intro h
  subst h
  rw [ht] at hdest
  exact Bool.noConfusion hdest

theorem winv_step {n : Nat} {dest : String} {values : Fin n → String}
    {init : Option String} {s s2 : WSys n}
    (hdest : hasPrefix dest ".tmp-" = false)
    (hstep : SetStep dest values s s2) (hinv : WInv dest values init s) :
    WInv dest values init s2 := by
  obtain ⟨inv1, inv2, inv3, inv4⟩ := hinv
  cases hstep with
  | create i t hph ht hfresh =>
    have hact : ∀ j t', activeTemp (s.ph j) = some t' → t' ≠ t := by
      intro j t' ha he
      subst he
      obtain ⟨-, c, hc⟩ := inv1 j t' ha
      rw [hfresh] at hc
      exact Option.noConfusion hc
    refine ⟨?_, ?_, ?_, ?_⟩
    · intro j t' ha
      dsimp only at ha ⊢
      by_cases hj : j = i
      · subst hj
        rw [if_pos rfl] at ha
        simp only [activeTemp] at ha
        obtain rfl := Option.some.inj ha
        exact ⟨ht, "", by simp⟩
      · rw [if_neg hj] at ha
        obtain ⟨ht', c, hc⟩ := inv1 j t' ha
        refine ⟨ht', ?_⟩
        by_cases hx : t' = t
        · exact ⟨"", by simp [hx]⟩
        · exact ⟨c, by simp [hx, hc]⟩
    · intro j t' hw
      dsimp only at hw ⊢
      by_cases hj : j = i
      · rw [if_pos hj] at hw
        exact WPhase.noConfusion hw
      · rw [if_neg hj] at hw
        have hne : t' ≠ t := hact j t' (by rw [hw]; rfl)
        rw [if_neg hne]
        exact inv2 j t' hw
    · intro j k t' haj hak
      dsimp only at haj hak
      by_cases hj : j = i <;> by_cases hk : k = i
      · rw [hj, hk]
      · rw [if_pos hj] at haj
        rw [if_neg hk] at hak
        simp only [activeTemp] at haj
        obtain rfl := Option.some.inj haj
        exact absurd rfl (hact k t hak)
      · rw [if_neg hj] at haj
        rw [if_pos hk] at hak
        simp only [activeTemp] at hak
        obtain rfl := Option.some.inj hak
        exact absurd rfl (hact j t haj)
      · rw [if_neg hj] at haj
        rw [if_neg hk] at hak
        exact inv3 j k t' haj hak
    · dsimp only
      have hne : dest ≠ t := (active_ne_dest ht hdest).symm
      rw [if_neg hne]
      rcases inv4 with h | ⟨i0, hren, hdir⟩
      · exact Or.inl h
      · refine Or.inr ⟨i0, ?_, hdir⟩
        have hi0 : i0 ≠ i := by
          intro he
          rw [he, hph] at hren
          exact WPhase.noConfusion hren
        rw [if_neg hi0]
        exact hren
  | write i t c hph =>
    have hacti : activeTemp (s.ph i) = some t := by rw [hph]; rfl
    obtain ⟨ht, c0, hc0⟩ := inv1 i t hacti
    refine ⟨?_, ?_, ?_, ?_⟩
    · intro j t' ha
      dsimp only at ha ⊢
      obtain ⟨ht', c', hc'⟩ := inv1 j t' ha
      refine ⟨ht', ?_⟩
      by_cases hx : t' = t
      · exact ⟨c, by simp [hx]⟩
      · exact ⟨c', by simp [hx, hc']⟩
    · intro j t' hw
      dsimp only at hw ⊢
      have hne : t' ≠ t := by
        intro he
        subst he
        have hj : j = i := inv3 j i t' (by rw [hw]; rfl) hacti
        rw [hj, hph] at hw
        exact WPhase.noConfusion hw
      rw [if_neg hne]
      exact inv2 j t' hw
    · intro j k t' haj hak
      exact inv3 j k t' haj hak
    · dsimp only
      have hne : dest ≠ t := (active_ne_dest ht hdest).symm
      rw [if_neg hne]
      exact inv4
  | finishWrite i t hph =>
    have hacti : activeTemp (s.ph i) = some t := by rw [hph]; rfl
    obtain ⟨ht, c0, hc0⟩ := inv1 i t hacti
    have hothers : ∀ j t', j ≠ i → activeTemp (s.ph j) = some t' → t' ≠ t := by
      intro j t' hj ha he
      subst he
      exact hj (inv3 j i t' ha hacti)
    refine ⟨?_, ?_, ?_, ?_⟩
    · intro j t' ha
      dsimp only at ha ⊢
      by_cases hj : j = i
      · rw [if_pos hj] at ha
        simp only [activeTemp] at ha
        obtain rfl := Option.some.inj ha
        exact ⟨ht, values i, by simp⟩
      · rw [if_neg hj] at ha
        obtain ⟨ht', c', hc'⟩ := inv1 j t' ha
        refine ⟨ht', ?_⟩
        by_cases hx : t' = t
        · exact ⟨values i, by simp [hx]⟩
        · exact ⟨c', by simp [hx, hc']⟩
    · intro j t' hw
      dsimp only at hw ⊢
      by_cases hj : j = i
      · rw [if_pos hj] at hw
        obtain rfl := (WPhase.written.injEq _ _).mp hw
        rw [if_pos rfl, hj]
      · rw [if_neg hj] at hw
        have hne : t' ≠ t := hothers j t' hj (by rw [hw]; rfl)
        rw [if_neg hne]
        exact inv2 j t' hw
    · intro j k t' haj hak
      dsimp only at haj hak
      have htrans : ∀ j2, activeTemp (if j2 = i then WPhase.written t else s.ph j2) =
          activeTemp (s.ph j2) := by
        intro j2
        by_cases hj2 : j2 = i
        · rw [if_pos hj2, hj2, hph]
          rfl
        · rw [if_neg hj2]
      rw [htrans] at haj
      rw [htrans] at hak
      exact inv3 j k t' haj hak
    · dsimp only
      have hne : dest ≠ t := (active_ne_dest ht hdest).symm
      rw [if_neg hne]
      rcases inv4 with h | ⟨i0, hren, hdir⟩
      · exact Or.inl h
      · refine Or.inr ⟨i0, ?_, hdir⟩
        have hi0 : i0 ≠ i := by
          intro he
          rw [he, hph] at hren
          exact WPhase.noConfusion hren
        rw [if_neg hi0]
        exact hren
  | abort i t hph =>
    have hacti : activeTemp (s.ph i) = some t := by rw [hph]; rfl
    obtain ⟨ht, c0, hc0⟩ := inv1 i t hacti
    have hothers : ∀ j t', j ≠ i → activeTemp (s.ph j) = some t' → t' ≠ t := by
      intro j t' hj ha he
      subst he
      exact hj (inv3 j i t' ha hacti)
    refine ⟨?_, ?_, ?_, ?_⟩
    · intro j t' ha
      dsimp only at ha ⊢
      by_cases hj : j = i
      · rw [if_pos hj] at ha
        simp only [activeTemp] at ha
        exact Option.noConfusion ha
      · rw [if_neg hj] at ha
        obtain ⟨ht', c', hc'⟩ := inv1 j t' ha
        have hne : t' ≠ t := hothers j t' hj ha
        exact ⟨ht', c', by simp [hne, hc']⟩
    · intro j t' hw
      dsimp only at hw ⊢
      by_cases hj : j = i
      · rw [if_pos hj] at hw
        exact WPhase.noConfusion hw
      · rw [if_neg hj] at hw
        have hne : t' ≠ t := hothers j t' hj (by rw [hw]; rfl)
        rw [if_neg hne]
        exact inv2 j t' hw
    · intro j k t' haj hak
      dsimp only at haj hak
      by_cases hj : j = i
      · rw [if_pos hj] at haj
        simp only [activeTemp] at haj
        exact Option.noConfusion haj
      · by_cases hk : k = i
        · rw [if_pos hk] at hak
          simp only [activeTemp] at hak
          exact Option.noConfusion hak
        · rw [if_neg hj] at haj
          rw [if_neg hk] at hak
          exact inv3 j k t' haj hak
    · dsimp only
      have hne : dest ≠ t := (active_ne_dest ht hdest).symm
      rw [if_neg hne]
      rcases inv4 with h | ⟨i0, hren, hdir⟩
      · exact Or.inl h
      · refine Or.inr ⟨i0, ?_, hdir⟩
        have hi0 : i0 ≠ i := by
          intro he
          rw [he, hph] at hren
          exact WPhase.noConfusion hren
        rw [if_neg hi0]
        exact hren
  | rename i t c hph hdir =>
    have hacti : activeTemp (s.ph i) = some t := by rw [hph]; rfl
    obtain ⟨ht, c0, hc0⟩ := inv1 i t hacti
    have hcv : c = values i := by
      have := inv2 i t hph
      rw [hdir] at this
      exact Option.some.inj this.symm |>.symm
    have hothers : ∀ j t', j ≠ i → activeTemp (s.ph j) = some t' → t' ≠ t := by
      intro j t' hj ha he
      subst he
      exact hj (inv3 j i t' ha hacti)
    have hnedest : t ≠ dest := active_ne_dest ht hdest
    refine ⟨?_, ?_, ?_, ?_⟩
    · intro j t' ha
      dsimp only at ha ⊢
      by_cases hj : j = i
      · rw [if_pos hj] at ha
        simp only [activeTemp] at ha
        exact Option.noConfusion ha
      · rw [if_neg hj] at ha
        obtain ⟨ht', c', hc'⟩ := inv1 j t' ha
        have hne : t' ≠ t := hothers j t' hj ha
        have hned : t' ≠ dest := active_ne_dest ht' hdest
        exact ⟨ht', c', by simp [hne, hned, hc']⟩
    · intro j t' hw
      dsimp only at hw ⊢
      by_cases hj : j = i
      · rw [if_pos hj] at hw
        exact WPhase.noConfusion hw
      · rw [if_neg hj] at hw
        have hactj : activeTemp (s.ph j) = some t' := by rw [hw]; rfl
        have hne : t' ≠ t := hothers j t' hj hactj
        obtain ⟨ht', -⟩ := inv1 j t' hactj
        have hned : t' ≠ dest := active_ne_dest ht' hdest
        rw [if_neg hned, if_neg hne]
        exact inv2 j t' hw
    · intro j k t' haj hak
      dsimp only at haj hak
      by_cases hj : j = i
      · rw [if_pos hj] at haj
        simp only [activeTemp] at haj
        exact Option.noConfusion haj
      · by_cases hk : k = i
        · rw [if_pos hk] at hak
          simp only [activeTemp] at hak
          exact Option.noConfusion hak
        · rw [if_neg hj] at haj
          rw [if_neg hk] at hak
          exact inv3 j k t' haj hak
    · dsimp only
      refine Or.inr ⟨i, by rw [if_pos rfl], ?_⟩
      rw [if_pos rfl, hcv]

/-- C2: from any initial state with no write in progress, after any
interleaving of concurrent Set steps on a key — including schedules that
stop early, modelling a crash before the final rename — Get on that key
returns either the key's initial fully-written value (or its absence)
or the whole value of some Set whose rename completed; never a partial
or corrupt value.  The key's escaped path must not itself look like an
in-flight temp file, which holds for every supervisor key. -/
theorem store_set_atomic {n : Nat} (k : String) (values : Fin n → String)
    (s0 s : WSys n)
    (hk : hasPrefix (escape k) ".tmp-" = false)
    (h0 : ∀ i, s0.ph i = .start)
    (hreach : Relation.ReflTransGen (SetStep (escape k) values) s0 s) :
    dirGet s.dir k = dirGet s0.dir k ∨
      ∃ i, s.ph i = .renamed ∧ dirGet s.dir k = Except.ok (values i) := by
  have hinv : WInv (escape k) values (s0.dir (escape k)) s := by
    induction hreach with
    | refl =>
      refine ⟨?_, ?_, ?_, Or.inl rfl⟩
      · intro i t ha
        rw [h0 i] at ha
        simp only [activeTemp] at ha
        exact Option.noConfusion ha
      · intro i t hw
        rw [h0 i] at hw
        exact WPhase.noConfusion hw
      · intro i j t hai haj
        rw [h0 i] at hai
        simp only [activeTemp] at hai
        exact Option.noConfusion hai
    | tail _ hstep ih => exact winv_step hk hstep ih
  rcases hinv.2.2.2 with h | ⟨i, hren, hdir⟩
  · left
    simp only [dirGet]
    rw [h]
  · right
    refine ⟨i, hren, ?_⟩
    simp only [dirGet]
    rw [hdir]

/-- A one-writer system in its initial state over an empty directory. -/
def wsysW : WSys 1 := ⟨fun _ => none, fun _ => .start⟩

theorem store_set_atomic_witness :
    (hasPrefix (escape "proc:x") ".tmp-" = false ∧
        ∀ i : Fin 1, wsysW.ph i = .start) ∧
      (dirGet wsysW.dir "proc:x" = dirGet wsysW.dir "proc:x" ∨
        ∃ i : Fin 1, wsysW.ph i = .renamed ∧
          dirGet wsysW.dir "proc:x" = Except.ok ((fun _ => "v1") i)) :=
  ⟨⟨by decide, fun _ => rfl⟩,
    store_set_atomic "proc:x" (fun _ => "v1") wsysW wsysW (by decide)
      (fun _ => rfl) .refl⟩

end ThoughtProcess
